import Mathlib

/-!
Shallow embedding of `phira/src/client/model.rs` (qaqFei/phirb).

Rust strings are modelled as `List Char`; `u32` values as `Nat` with
explicit `% 2^32` where the code's arithmetic may wrap; `i32` identifiers
as `Int`; `Arc<T>` as `T` (shared ownership is immaterial in a pure
embedding, `Arc::clone` is the identity on the value); fallible code
returns `Option` / `Except`.
-/

set_option autoImplicit false

/-- One decimal digit `d < 10` rendered as a character, as Rust's
`core::fmt` does for `u32` values. -/
def digitChar (d : Nat) : Char := Char.ofNat (48 + d)

/-- Rust's per-character digit check used by `u32::from_str`
(`char::to_digit(10)`): ASCII `0`..`9` maps to its value, anything else
fails. -/
def digitVal (c : Char) : Option Nat :=
  if 48 ≤ c.toNat ∧ c.toNat ≤ 57 then some (c.toNat - 48) else none

/-- Little-endian decimal digits of `n`, with explicit fuel so the
definition is structural (kernel-reducible). `natDigitsAux fuel n` is the
digit list of `n` provided `n ≤ fuel`. -/
def natDigitsAux : Nat → Nat → List Nat
  | 0, _ => []
  | fuel + 1, n => if n = 0 then [] else n % 10 :: natDigitsAux fuel (n / 10)

/-- Little-endian decimal digits of `n` (empty for `0`). -/
def natDigitsLE (n : Nat) : List Nat := natDigitsAux n n

/-- Decimal rendering of a nonnegative integer, exactly as Rust's
`{}` / `{:02}` formatting renders a `u32` before padding: no sign, no
leading zeros, `0` renders as `"0"`. -/
def natRepr (n : Nat) : List Char :=
  if n = 0 then ['0'] else ((natDigitsLE n).map digitChar).reverse

/-- Accumulating decimal parse: consumes characters left to right,
failing on the first non-digit, as the digit loop of `u32::from_str`
does. -/
def parseDigitsAux : Nat → List Char → Option Nat
  | acc, [] => some acc
  | acc, c :: rest =>
    match digitVal c with
    | some d => parseDigitsAux (10 * acc + d) rest
    | none => none

/-- Parse a nonempty all-digit string to its value; the empty string
fails (Rust's `from_str` rejects `""` and a bare sign). -/
def parseDigits : List Char → Option Nat
  | [] => none
  | l => parseDigitsAux 0 l

/-- `u32::from_str` accepts one optional leading `+` sign; strip it. -/
def stripPlus (l : List Char) : List Char :=
  if l.head? = some '+' then l.tail else l

/-- `2^32`, the modulus of Rust `u32` arithmetic. -/
def U32_MOD : Nat := 4294967296

/-- Rust's `str::parse::<u32>()`: optional `+`, then a nonempty run of
decimal digits whose value fits in 32 bits; anything else fails. -/
def parseU32 (l : List Char) : Option Nat :=
  match parseDigits (stripPlus l) with
  | some n => if n < U32_MOD then some n else none
  | none => none

/-- Rust's `{:02}` padding: left-pad with `'0'` to a minimum width of
two characters. -/
def pad2 (l : List Char) : List Char :=
  List.replicate (2 - l.length) '0' ++ l

/-- One step of Rust's `str::splitn(_, ':')` iterator: the text before
the first separator, and — when a separator occurs — the remainder after
it (`none` when the separator does not occur). -/
def splitOnce (c : Char) : List Char → List Char × Option (List Char)
  | [] => ([], none)
  | x :: xs =>
    if x = c then ([], some xs)
    else
      let p := splitOnce c xs
      (x :: p.1, p.2)

/-- `MusicPosition` (model.rs:52): a nonnegative second count (`u32` in
the source; decoding only ever produces values `< 2^32`). -/
structure MusicPosition where
  seconds : Nat
deriving DecidableEq, Repr

/-- The closure inside `TryFrom<String> for MusicPosition`
(model.rs:59-65): `value.splitn(3, ':')`, three `it.next()?.parse::<u32>().ok()?`
steps, composing `res = res * 60 + field` twice.  The first `next()`
always yields a field (possibly empty), so its presence check is
omitted; each multiply-add is `u32` arithmetic, taken `% 2^32`. -/
def musicSecondsOpt (l : List Char) : Option Nat :=
  match splitOnce ':' l with
  | (f0, or0) =>
    match parseU32 f0 with
    | none => none
    | some n0 =>
      match or0 with
      | none => none
      | some r0 =>
        match splitOnce ':' r0 with
        | (f1, or1) =>
          match parseU32 f1 with
          | none => none
          | some n1 =>
            match or1 with
            | none => none
            | some r1 =>
              match parseU32 r1 with
              | none => none
              | some n2 => some (((n0 * 60 + n1) % U32_MOD * 60 + n2) % U32_MOD)

/-- `impl TryFrom<String> for MusicPosition` (model.rs:55-69): on failure
of the field pipeline the error is the literal `"illegal position"`. -/
def musicDecode (l : List Char) : Except String MusicPosition :=
  match musicSecondsOpt l with
  | some s => Except.ok ⟨s⟩
  | none => Except.error "illegal position"

/-- `impl From<MusicPosition> for String` (model.rs:70-74):
`format!("00:00:{:02}", value.seconds)` — the literal text `00:00:`
followed by the whole second count zero-padded to at least two digits. -/
def musicEncode (m : MusicPosition) : List Char :=
  "00:00:".toList ++ pad2 (natRepr m.seconds)

/-- Encoding as claim C3 states it (from the spec's words, for
comparison with `musicEncode`): `"00:MM:SS"` with `MM = s / 60`
(unbounded) and `SS = s % 60`, each zero-padded to two digits. -/
def specMusicEncode (s : Nat) : List Char :=
  "00:".toList ++ pad2 (natRepr (s / 60)) ++ ':' :: pad2 (natRepr (s % 60))

/-- `LevelType` (model.rs:76-85): a closed enum of five difficulty
variants with wire ordinals 0..4. -/
inductive LevelType
  | EZ
  | HD
  | IN
  | AT
  | SP
deriving DecidableEq, Repr

/-- `impl TryFrom<u8> for LevelType` (model.rs:86-102): bytes 0..4 map to
the five variants; any other byte `x` fails with
`format!("illegal level type: {x}")`.  The `u8` domain is `Nat` with the
bound `v < 256` carried as a hypothesis where it matters. -/
def levelTryFrom (v : Nat) : Except String LevelType :=
  match v with
  | 0 => Except.ok LevelType.EZ
  | 1 => Except.ok LevelType.HD
  | 2 => Except.ok LevelType.IN
  | 3 => Except.ok LevelType.AT
  | 4 => Except.ok LevelType.SP
  | x => Except.error ("illegal level type: " ++ String.mk (natRepr x))

/-- `Ptr<T>` (model.rs:104-108): an identifier plus a phantom type
marker, modelled as a one-field structure over the marker type.  The
`i32` identifier is an `Int`; the `i32` range bound is carried as a
hypothesis where a claim mentions it. -/
structure Ptr (T : Type) where
  id : Int
deriving DecidableEq, Repr

/-- `Ptr::new` (model.rs:121-126). -/
def Ptr.new (T : Type) (id : Int) : Ptr T := ⟨id⟩

/-- `impl Clone for Ptr<T>` (model.rs:109-113): `Self::new(self.id)`. -/
def Ptr.clone {T : Type} (p : Ptr T) : Ptr T := Ptr.new T p.id

/-- `impl Serialize for Ptr<T>` (model.rs:148-152):
`serializer.serialize_i32(self.id)` — the bare identifier, no wrapping
structure (the serialized form IS the integer). -/
def Ptr.serialize {T : Type} (p : Ptr T) : Int := p.id

/-- `impl Deserialize for Ptr<T>` (model.rs:153-160):
`i32::deserialize(deserializer).map(Self::new)` — a bare integer becomes
the reference with that identifier. -/
def Ptr.deserialize (T : Type) (i : Int) : Ptr T := Ptr.new T i

/-- `ObjectMap<T> = LruCache<i32, Arc<T>>` (model.rs:31): modelled as an
association list in recency order (most recently used first) plus the
fixed capacity. -/
structure ObjectMap (V : Type) where
  entries : List (Int × V)
  cap : Nat
deriving Repr

/-- First value stored under key `k`, if any (the association list holds
at most one entry per key under the cache's use). -/
def lookupKey {V : Type} : List (Int × V) → Int → Option V
  | [], _ => none
  | (k', v) :: rest, k => if k' = k then some v else lookupKey rest k

/-- Remove the first entry stored under key `k`. -/
def eraseKey {V : Type} : List (Int × V) → Int → List (Int × V)
  | [], _ => []
  | (k', v) :: rest, k => if k' = k then rest else (k', v) :: eraseKey rest k

/-- `LruCache::get` (used at model.rs:139): on a hit, promote the entry
to most-recently-used and return its value; on a miss, leave the cache
untouched. -/
def lruGet {V : Type} (m : ObjectMap V) (k : Int) : Option V × ObjectMap V :=
  match lookupKey m.entries k with
  | some v => (some v, ⟨(k, v) :: eraseKey m.entries k, m.cap⟩)
  | none => (none, m)

/-- `LruCache::put`: if the key is present, update it and promote it (no
eviction); otherwise insert at most-recently-used, evicting the
least-recently-used entry when the cache is full.  The second component
reports the evicted entry, if any. -/
def lruPut {V : Type} (m : ObjectMap V) (k : Int) (v : V) :
    ObjectMap V × Option (Int × V) :=
  match lookupKey m.entries k with
  | some _ => (⟨(k, v) :: eraseKey m.entries k, m.cap⟩, none)
  | none =>
    if m.entries.length = m.cap then
      (⟨(k, v) :: m.entries.dropLast, m.cap⟩, m.entries.getLast?)
    else
      (⟨(k, v) :: m.entries, m.cap⟩, none)

/-- Insert a sequence of key/value pairs in order, collecting the
evicted entries in eviction order. -/
def lruPutAll {V : Type} (m : ObjectMap V) : List (Int × V) → ObjectMap V × List (Int × V)
  | [] => (m, [])
  | (k, v) :: rest =>
    let p := lruPut m k v
    let q := lruPutAll p.1 rest
    (q.1, p.2.toList ++ q.2)

/-- `obtain_map_cache::<T>` (model.rs:34-41) creates each type's cache as
`ObjectMap::<T>::new(64.try_into().unwrap())`: an empty LRU map of
capacity 64. -/
def newObjectMap (V : Type) : ObjectMap V := ⟨[], 64⟩

/-- `Ptr::load` (model.rs:133-146), with the global per-type cache passed
explicitly and the Remote Client collaborator `Client::fetch` as an
oracle `fetch : Int → Except E V`.  Returns the result, the cache state
after the call, and whether `fetch` was invoked.  A hit returns
`Arc::clone` of the cached value (the value itself here); a miss drops
the lock (no cache mutation) and returns `self.fetch()`. -/
def Ptr.load {T V E : Type} (fetch : Int → Except E V) (p : Ptr T)
    (m : ObjectMap V) : Except E V × ObjectMap V × Bool :=
  match lruGet m p.id with
  | (some v, m') => (Except.ok v, m', false)
  | (none, m') => (fetch p.id, m', true)

/-- `PZFile` (model.rs:174-178): a URL-addressed binary resource. -/
structure PZFile where
  url : List Char
deriving DecidableEq, Repr

/-- Rust's `str::starts_with` for a string pattern. -/
def strStartsWith : List Char → List Char → Bool
  | _, [] => true
  | [], _ :: _ => false
  | c :: cs, p :: ps => c = p && strStartsWith cs ps

/-- The recognized CDN host tested at model.rs:193. -/
def cdnHost : List Char := "https://phira.mivik.cn/".toList

/-- The resize query suffix of model.rs:195:
`?imageView/0/w/{THUMBNAIL_WIDTH}/h/{THUMBNAIL_HEIGHT}`.  The two
constants live in `crate::images`, outside this file, so the suffix is
parameterized by their values `w` and `h`. -/
def thumbnailSuffix (w h : Nat) : List Char :=
  "?imageView/0/w/".toList ++ natRepr w ++ "/h/".toList ++ natRepr h

/-- `PZFile::load_image` (model.rs:188-190) fetches `self.url` and
decodes the bytes; the URL it requests is the file's own URL. -/
def PZFile.imageRequestUrl (f : PZFile) : List Char := f.url

/-- `PZFile::load_thumbnail` (model.rs:192-201): under the recognized
CDN host, build a new `PZFile` with the resize suffix appended and load
that image; otherwise `self.load_image()`.  The function returns the URL
the image request is issued on. -/
def PZFile.thumbnailRequestUrl (w h : Nat) (f : PZFile) : List Char :=
  if strStartsWith f.url cdnHost then
    PZFile.imageRequestUrl ⟨f.url ++ thumbnailSuffix w h⟩
  else
    PZFile.imageRequestUrl f

example : natRepr 60 = ['6', '0'] := by decide
example : musicEncode ⟨60⟩ = "00:00:60".toList := by decide
example : specMusicEncode 60 = "00:01:00".toList := by decide
example : musicDecode "1:2".toList = Except.error "illegal position" := rfl
example : musicDecode "1:2:3".toList = Except.ok ⟨3723⟩ := rfl
example : musicDecode "00:00:65".toList = Except.ok ⟨65⟩ := rfl
example : musicDecode "1:2:3:4".toList = Except.error "illegal position" := rfl
example : parseU32 "+17".toList = some 17 := by decide
example : parseU32 "".toList = none := by decide
example : parseU32 "4294967296".toList = none := by decide

/-! ### Decimal rendering / parsing lemmas -/

theorem natDigitsAux_zero (fuel : Nat) : natDigitsAux fuel 0 = [] := by
  cases fuel <;> simp [natDigitsAux]

theorem natDigitsAux_fuel_irrel (f1 : Nat) : ∀ f2 n, n ≤ f1 → n ≤ f2 →
    natDigitsAux f1 n = natDigitsAux f2 n := by
  induction f1 with
  | zero =>
    intro f2 n h1 _
    interval_cases n
    simp [natDigitsAux_zero]
  | succ f1 ih =>
    intro f2 n h1 h2
    rcases Nat.eq_zero_or_pos n with rfl | hn
    · simp [natDigitsAux_zero]
    · obtain ⟨f2', rfl⟩ : ∃ f2', f2 = f2' + 1 := ⟨f2 - 1, by omega⟩
      have hdiv : n / 10 < n := Nat.div_lt_self hn (by norm_num)
      simp only [natDigitsAux, if_neg (Nat.pos_iff_ne_zero.mp hn)]
      rw [ih f2' (n / 10) (by omega) (by omega)]

theorem natDigitsLE_succ (n : Nat) (h : n ≠ 0) :
    natDigitsLE n = n % 10 :: natDigitsLE (n / 10) := by
  have hn : 0 < n := Nat.pos_iff_ne_zero.mpr h
  obtain ⟨m, rfl⟩ : ∃ m, n = m + 1 := ⟨n - 1, by omega⟩
  have hdiv : (m + 1) / 10 < m + 1 := Nat.div_lt_self hn (by norm_num)
  simp only [natDigitsLE, natDigitsAux, if_neg h]
  rw [natDigitsAux_fuel_irrel m ((m + 1) / 10) ((m + 1) / 10) (by omega) (le_refl _)]

theorem natRepr_low (n : Nat) (h : n < 10) : natRepr n = [digitChar n] := by
  rcases Nat.eq_zero_or_pos n with rfl | hn
  · simp [natRepr, digitChar]
  · have h0 : n ≠ 0 := Nat.pos_iff_ne_zero.mp hn
    have hd : n / 10 = 0 := Nat.div_eq_of_lt h
    have hm : n % 10 = n := Nat.mod_eq_of_lt h
    rw [natRepr, if_neg h0, natDigitsLE_succ n h0, hd, hm]
    simp [natDigitsLE, natDigitsAux]

theorem natRepr_high (n : Nat) (h : 10 ≤ n) :
    natRepr n = natRepr (n / 10) ++ [digitChar (n % 10)] := by
  have h0 : n ≠ 0 := by omega
  have h10 : n / 10 ≠ 0 := by
    intro hc
    have := Nat.div_eq_of_lt (by omega : n < 10)
    omega
  simp only [natRepr, if_neg h0, if_neg h10, natDigitsLE_succ n h0, List.map_cons,
    List.reverse_cons]

theorem natRepr_ne_nil (n : Nat) : natRepr n ≠ [] := by
  rcases Nat.lt_or_ge n 10 with h | h
  · simp [natRepr_low n h]
  · simp [natRepr_high n h]

theorem digitVal_digitChar (d : Nat) (h : d < 10) : digitVal (digitChar d) = some d := by
  interval_cases d <;> decide

theorem digitChar_ne_plus (d : Nat) (h : d < 10) : digitChar d ≠ '+' := by
  interval_cases d <;> decide

theorem natRepr_head (n : Nat) : ∃ d r, d < 10 ∧ natRepr n = digitChar d :: r := by
  induction n using Nat.strong_induction_on with
  | _ n ih =>
    rcases Nat.lt_or_ge n 10 with h | h
    · exact ⟨n, [], h, natRepr_low n h⟩
    · have hdiv : n / 10 < n := Nat.div_lt_self (by omega) (by norm_num)
      obtain ⟨d, r, hd, hr⟩ := ih (n / 10) hdiv
      exact ⟨d, r ++ [digitChar (n % 10)], hd, by rw [natRepr_high n h, hr]; rfl⟩

theorem parseDigitsAux_natRepr (n : Nat) : ∀ acc rest,
    parseDigitsAux acc (natRepr n ++ rest) =
      parseDigitsAux (acc * 10 ^ (natRepr n).length + n) rest := by
  induction n using Nat.strong_induction_on with
  | _ n ih =>
    intro acc rest
    rcases Nat.lt_or_ge n 10 with h | h
    · rw [natRepr_low n h]
      simp only [List.cons_append, List.nil_append, parseDigitsAux,
        digitVal_digitChar n h, List.length_singleton, pow_one]
      congr 1
      ring
    · have hdiv : n / 10 < n := Nat.div_lt_self (by omega) (by norm_num)
      have hmod : n % 10 < 10 := Nat.mod_lt n (by norm_num)
      rw [natRepr_high n h, List.append_assoc, ih (n / 10) hdiv acc _]
      simp only [List.cons_append, List.nil_append, parseDigitsAux,
        digitVal_digitChar (n % 10) hmod, List.length_append, List.length_singleton]
      congr 1
      have hdm := Nat.div_add_mod n 10
      calc 10 * (acc * 10 ^ (natRepr (n / 10)).length + n / 10) + n % 10
          = acc * (10 ^ (natRepr (n / 10)).length * 10) + (10 * (n / 10) + n % 10) := by
            ring
        _ = acc * 10 ^ ((natRepr (n / 10)).length + 1) + n := by rw [hdm, pow_succ]

theorem parseDigits_natRepr (n : Nat) : parseDigits (natRepr n) = some n := by
  obtain ⟨d, r, hd, hr⟩ := natRepr_head n
  have h1 : parseDigits (natRepr n) = parseDigitsAux 0 (natRepr n) := by
    rw [hr]
    rfl
  rw [h1, ← List.append_nil (natRepr n), parseDigitsAux_natRepr]
  simp [parseDigitsAux]

theorem stripPlus_of_head_ne (l : List Char) (h : l.head? ≠ some '+') :
    stripPlus l = l := by
  rw [stripPlus, if_neg h]

theorem natRepr_length_two (n : Nat) (h : 10 ≤ n) : 2 ≤ (natRepr n).length := by
  have h1 : 1 ≤ (natRepr (n / 10)).length :=
    List.length_pos.mpr (natRepr_ne_nil (n / 10))
  rw [natRepr_high n h]
  simp only [List.length_append, List.length_singleton]
  omega

theorem parseU32_pad2_natRepr (n : Nat) (h : n < U32_MOD) :
    parseU32 (pad2 (natRepr n)) = some n := by
  rcases Nat.lt_or_ge n 10 with h10 | h10
  · rw [natRepr_low n h10]
    have hp : pad2 [digitChar n] = ['0', digitChar n] := by
      simp [pad2, List.replicate]
    have hv : digitVal '0' = some 0 := by decide
    have hne : (['0', digitChar n] : List Char).head? ≠ some '+' := by
      simp only [List.head?_cons, ne_eq, Option.some.injEq]
      decide
    rw [hp, parseU32, stripPlus_of_head_ne _ hne]
    simp [parseDigits, parseDigitsAux, hv, digitVal_digitChar n h10, h]
  · have hpad : pad2 (natRepr n) = natRepr n := by
      have := natRepr_length_two n h10
      rw [pad2, (show 2 - (natRepr n).length = 0 by omega)]
      simp
    obtain ⟨d, r, hd, hr⟩ := natRepr_head n
    have hne : (natRepr n).head? ≠ some '+' := by
      rw [hr]
      simp only [List.head?_cons, ne_eq, Option.some.injEq]
      exact digitChar_ne_plus d hd
    rw [hpad, parseU32, stripPlus_of_head_ne _ hne, parseDigits_natRepr]
    exact if_pos h

theorem parseDigitsAux_digits (l : List Char) : ∀ acc n, parseDigitsAux acc l = some n →
    ∀ c ∈ l, (digitVal c).isSome := by
  induction l with
  | nil =>
    intro acc n _ c hc
    cases hc
  | cons x xs ih =>
    intro acc n hp c hc
    rcases hv : digitVal x with _ | d
    · simp only [parseDigitsAux, hv] at hp
      cases hp
    · simp only [parseDigitsAux, hv] at hp
      cases hc with
      | head =>
        rw [hv]
        rfl
      | tail _ hmem => exact ih _ n hp c hmem

theorem parseU32_no_colon (l : List Char) (n : Nat) (h : parseU32 l = some n) :
    ':' ∉ l := by
  have hcolon : (':' : Char) ∉ stripPlus l := by
    rcases hp : parseDigits (stripPlus l) with _ | m
    · rw [parseU32, hp] at h
      cases h
    · intro hc
      have hdig : ∀ c ∈ stripPlus l, (digitVal c).isSome := by
        rcases hs : stripPlus l with _ | ⟨x, xs⟩
        · intro c hcm
          cases hcm
        · rw [hs] at hp
          have hp' : parseDigitsAux 0 (x :: xs) = some m := hp
          rw [← hs] at hp' ⊢
          intro c hcm
          rw [hs] at hp' hcm
          exact parseDigitsAux_digits _ 0 m hp' c hcm
      have := hdig ':' hc
      simp [digitVal] at this
  intro hcl
  by_cases hh : l.head? = some '+'
  · rcases l with _ | ⟨x, xs⟩
    · cases hcl
    · simp only [List.head?_cons, Option.some.injEq] at hh
      subst hh
      rw [show stripPlus ('+' :: xs) = xs from rfl] at hcolon
      rw [List.mem_cons] at hcl
      rcases hcl with hc | hc
      · exact absurd hc (by decide)
      · exact hcolon hc
  · rw [stripPlus, if_neg hh] at hcolon
    exact hcolon hcl

theorem splitOnce_of_not_mem (c : Char) (l : List Char) (h : c ∉ l) :
    splitOnce c l = (l, none) := by
  induction l with
  | nil => rfl
  | cons x xs ih =>
    have hx : x ≠ c := fun hc => h (hc ▸ List.mem_cons_self x xs)
    have hxs : c ∉ xs := fun hc => h (List.mem_cons_of_mem x hc)
    rw [splitOnce, if_neg hx, ih hxs]

theorem splitOnce_append (c : Char) (f r : List Char) (h : c ∉ f) :
    splitOnce c (f ++ c :: r) = (f, some r) := by
  induction f with
  | nil => simp [splitOnce]
  | cons x xs ih =>
    have hx : x ≠ c := fun hc => h (hc ▸ List.mem_cons_self x xs)
    have hxs : c ∉ xs := fun hc => h (List.mem_cons_of_mem x hc)
    rw [List.cons_append, splitOnce, if_neg hx, ih hxs]

theorem splitOnce_some (c : Char) (l : List Char) : ∀ f r,
    splitOnce c l = (f, some r) → l = f ++ c :: r ∧ c ∉ f := by
  induction l with
  | nil =>
    intro f r h
    cases h
  | cons x xs ih =>
    intro f r h
    by_cases hx : x = c
    · rw [splitOnce, if_pos hx] at h
      injection h with h1 h2
      injection h2 with h2
      subst hx
      constructor
      · rw [← h1, ← h2]
        rfl
      · rw [← h1]
        exact List.not_mem_nil x
    · simp only [splitOnce, if_neg hx] at h
      rcases hsp : splitOnce c xs with ⟨f', or'⟩
      rw [hsp] at h
      injection h with h1 h2
      rcases or' with _ | r'
      · cases h2
      · injection h2 with h2
        subst h2
        obtain ⟨hl, hf⟩ := ih f' r' hsp
        constructor
        · rw [← h1, hl]
          simp
        · intro hmem
          rw [← h1, List.mem_cons] at hmem
          rcases hmem with hc2 | hc2
          · exact hx hc2.symm
          · exact hf hc2

/-! ### LRU cache lemmas -/

theorem lookupKey_eq_none {V : Type} (l : List (Int × V)) (k : Int) :
    lookupKey l k = none ↔ k ∉ l.map Prod.fst := by
  induction l with
  | nil => simp [lookupKey]
  | cons e rest ih =>
    rcases e with ⟨k', v⟩
    by_cases hk : k' = k
    · subst hk
      simp [lookupKey]
    · rw [lookupKey, if_neg hk, List.map_cons, List.mem_cons, ih]
      simp only [List.map]
      constructor
      · intro h hc
        rcases hc with hc | hc
        · exact hk hc.symm
        · exact h hc
      · intro h hc
        exact h (Or.inr hc)

theorem perm_cons_eraseKey {V : Type} (l : List (Int × V)) : ∀ k v,
    lookupKey l k = some v → l.Perm ((k, v) :: eraseKey l k) := by
  induction l with
  | nil =>
    intro k v h
    cases h
  | cons e rest ih =>
    intro k v h
    rcases e with ⟨k', v'⟩
    by_cases hk : k' = k
    · subst hk
      rw [lookupKey, if_pos rfl] at h
      injection h with h
      subst h
      rw [eraseKey, if_pos rfl]
    · rw [lookupKey, if_neg hk] at h
      rw [eraseKey, if_neg hk]
      exact ((ih k v h).cons (k', v')).trans (List.Perm.swap (k, v) (k', v') _)

theorem lruPutAll_append {V : Type} (as : List (Int × V)) : ∀ (bs : List (Int × V))
    (m : ObjectMap V),
    lruPutAll m (as ++ bs) =
      ((lruPutAll (lruPutAll m as).1 bs).1,
        (lruPutAll m as).2 ++ (lruPutAll (lruPutAll m as).1 bs).2) := by
  induction as with
  | nil =>
    intro bs m
    simp [lruPutAll]
  | cons e rest ih =>
    intro bs m
    rcases e with ⟨k, v⟩
    rw [List.cons_append, lruPutAll, lruPutAll, ih bs (lruPut m k v).1]
    simp [List.append_assoc]

theorem lruPutAll_fresh {V : Type} (ps : List (Int × V)) : ∀ (m : ObjectMap V),
    (∀ k ∈ ps.map Prod.fst, lookupKey m.entries k = none) →
    (ps.map Prod.fst).Nodup →
    m.entries.length + ps.length ≤ m.cap →
    lruPutAll m ps = (⟨ps.reverse ++ m.entries, m.cap⟩, []) := by
  induction ps with
  | nil =>
    intro m _ _ _
    simp [lruPutAll]
  | cons e rest ih =>
    intro m hfresh hnodup hlen
    rcases e with ⟨k, v⟩
    have hk : lookupKey m.entries k = none := hfresh k (by simp)
    have hne : m.entries.length ≠ m.cap := by
      simp only [List.length_cons] at hlen
      omega
    rw [lruPutAll, lruPut, hk]
    simp only [if_neg hne]
    have hmem : k ∉ rest.map Prod.fst := by
      simp only [List.map_cons, List.nodup_cons] at hnodup
      exact hnodup.1
    have hfresh' : ∀ k' ∈ rest.map Prod.fst,
        lookupKey (((k, v) :: m.entries : List (Int × V))) k' = none := by
      intro k' hk'
      have hkk : k ≠ k' := fun hc => hmem (hc ▸ hk')
      rw [lookupKey, if_neg hkk]
      exact hfresh k' (by simp [hk'])
    have hnodup' : (rest.map Prod.fst).Nodup := by
      simp only [List.map_cons, List.nodup_cons] at hnodup
      exact hnodup.2
    have hlen' : (((k, v) :: m.entries : List (Int × V))).length + rest.length ≤ m.cap := by
      simp only [List.length_cons] at hlen ⊢
      omega
    have := ih ⟨(k, v) :: m.entries, m.cap⟩ hfresh' hnodup' hlen'
    rw [this]
    simp [List.append_assoc]

theorem splitOnce_none (c : Char) (l : List Char) : ∀ f,
    splitOnce c l = (f, none) → f = l ∧ c ∉ l := by
  induction l with
  | nil =>
    intro f h
    injection h with h1 _
    exact ⟨h1.symm, List.not_mem_nil c⟩
  | cons x xs ih =>
    intro f h
    by_cases hx : x = c
    · rw [splitOnce, if_pos hx] at h
      injection h with _ h2
      cases h2
    · simp only [splitOnce, if_neg hx] at h
      rcases hsp : splitOnce c xs with ⟨f', or'⟩
      rw [hsp] at h
      injection h with h1 h2
      rcases or' with _ | r'
      · obtain ⟨hf, hm⟩ := ih f' hsp
        constructor
        · rw [← h1, hf]
        · intro hmem
          rw [List.mem_cons] at hmem
          rcases hmem with hc | hc
          · exact hx hc.symm
          · exact hm hc
      · cases h2

/-- C5: two `Ptr<T>` of the same entity type compare equal iff their
identifiers are equal (a `Ptr` is nothing but its identifier:
model.rs:104-108); `new` stores exactly the given id, and `clone`
(model.rs:109-113) reproduces the identical reference, hence an identical
id. -/
theorem ptr_equality (T : Type) :
    (∀ a b : Ptr T, a = b ↔ a.id = b.id) ∧
    (∀ i : Int, (Ptr.new T i).id = i) ∧
    (∀ p : Ptr T, Ptr.clone p = p) := by
  refine ⟨?_, fun i => rfl, fun p => rfl⟩
  intro a b
  cases a
  cases b
  simp

/-- C6: `Ptr<T>` serializes as its bare identifier (model.rs:148-152) and
deserializes from a bare integer (model.rs:153-160); both round trips are
the identity on every value in `i32` range. -/
theorem ptr_serde_roundtrip (T : Type) :
    (∀ i : Int, -2147483648 ≤ i → i < 2147483648 →
      Ptr.serialize (Ptr.deserialize T i) = i ∧ (Ptr.deserialize T i).id = i) ∧
    (∀ p : Ptr T, -2147483648 ≤ p.id → p.id < 2147483648 →
      Ptr.deserialize T (Ptr.serialize p) = p) :=
  ⟨fun _ _ _ => ⟨rfl, rfl⟩, fun _ _ _ => rfl⟩

/-- Witness for C6 at `i = 42` and at the reference with id `-7`. -/
theorem ptr_serde_roundtrip_witness :
    Ptr.serialize (Ptr.deserialize Unit 42) = 42 ∧
    Ptr.deserialize Unit (Ptr.serialize (Ptr.new Unit (-7))) = Ptr.new Unit (-7) :=
  ⟨((ptr_serde_roundtrip Unit).1 42 (by decide) (by decide)).1,
   (ptr_serde_roundtrip Unit).2 (Ptr.new Unit (-7)) (by decide) (by decide)⟩

/-- C7: `LevelType` decoding (model.rs:86-102) sends bytes 0..4 to
EZ,HD,IN,AT,SP in order (each variant is hit, so the map on 0..4 is a
bijection onto the five variants), and every byte `v ≥ 5` fails with the
error naming `v`. -/
theorem levelType_decode_bijection :
    (levelTryFrom 0 = Except.ok LevelType.EZ ∧
     levelTryFrom 1 = Except.ok LevelType.HD ∧
     levelTryFrom 2 = Except.ok LevelType.IN ∧
     levelTryFrom 3 = Except.ok LevelType.AT ∧
     levelTryFrom 4 = Except.ok LevelType.SP) ∧
    (∀ t : LevelType, ∃ v, v < 5 ∧ levelTryFrom v = Except.ok t) ∧
    (∀ v : Nat, 5 ≤ v → v < 256 →
      levelTryFrom v = Except.error ("illegal level type: " ++ String.mk (natRepr v))) := by
  refine ⟨⟨rfl, rfl, rfl, rfl, rfl⟩, ?_, ?_⟩
  · intro t
    cases t with
    | EZ => exact ⟨0, by norm_num, rfl⟩
    | HD => exact ⟨1, by norm_num, rfl⟩
    | IN => exact ⟨2, by norm_num, rfl⟩
    | AT => exact ⟨3, by norm_num, rfl⟩
    | SP => exact ⟨4, by norm_num, rfl⟩
  · intro v h5 _
    obtain ⟨w, rfl⟩ : ∃ w, v = w + 5 := ⟨v - 5, by omega⟩
    rfl

/-- Witness for C7: byte 7 fails with the error naming 7. -/
theorem levelType_decode_bijection_witness :
    levelTryFrom 7 = Except.error "illegal level type: 7" := by
  have h := levelType_decode_bijection.2.2 7 (by norm_num) (by norm_num)
  rw [h]
  rfl

/-- C8: `load_thumbnail` (model.rs:192-201) requests the original URL
with the fixed resize query suffix appended when the URL is under the
recognized CDN host, and issues exactly the plain `load_image` request on
the original URL otherwise.  `w`/`h` stand for the `THUMBNAIL_WIDTH` /
`THUMBNAIL_HEIGHT` constants of `crate::images` (not part of this file's
source). -/
theorem thumbnail_request_url (f : PZFile) (w h : Nat) :
    (strStartsWith f.url cdnHost = true →
      PZFile.thumbnailRequestUrl w h f = f.url ++ thumbnailSuffix w h) ∧
    (strStartsWith f.url cdnHost = false →
      PZFile.thumbnailRequestUrl w h f = PZFile.imageRequestUrl f) := by
  constructor
  · intro hc
    rw [PZFile.thumbnailRequestUrl, if_pos hc]
    rfl
  · intro hc
    rw [PZFile.thumbnailRequestUrl, if_neg (by simp [hc])]

/-- Witness for C8: a URL under the CDN host gets the suffix; any other
URL is requested unchanged. -/
theorem thumbnail_request_url_witness :
    PZFile.thumbnailRequestUrl 347 200 ⟨"https://phira.mivik.cn/a.png".toList⟩
      = "https://phira.mivik.cn/a.png".toList ++ thumbnailSuffix 347 200 ∧
    PZFile.thumbnailRequestUrl 347 200 ⟨"https://example.com/a.png".toList⟩
      = PZFile.imageRequestUrl ⟨"https://example.com/a.png".toList⟩ :=
  ⟨(thumbnail_request_url ⟨"https://phira.mivik.cn/a.png".toList⟩ 347 200).1 (by decide),
   (thumbnail_request_url ⟨"https://example.com/a.png".toList⟩ 347 200).2 (by decide)⟩

/-- C1: `Ptr::load` (model.rs:133-146).  If the identifier is present in
the type's cache, `load` returns the shared cached instance (promoted to
most-recently-used) and never invokes the Remote Client `fetch`; if it is
absent, `load` returns exactly the result of `fetch` for that identifier
(the `Bool` component records whether `fetch` was invoked). -/
theorem ptr_load_cache_then_network {T V E : Type} (fetch : Int → Except E V)
    (p : Ptr T) (m : ObjectMap V) :
    (∀ v, lookupKey m.entries p.id = some v →
      Ptr.load fetch p m =
        (Except.ok v, ⟨(p.id, v) :: eraseKey m.entries p.id, m.cap⟩, false)) ∧
    (lookupKey m.entries p.id = none →
      Ptr.load fetch p m = (fetch p.id, m, true)) := by
  constructor
  · intro v hv
    simp [Ptr.load, lruGet, hv]
  · intro hn
    simp [Ptr.load, lruGet, hn]

/-- Witness for C1: a hit on a populated entry returns the cached value
without invoking fetch; a miss returns the fetch result. -/
theorem ptr_load_cache_then_network_witness :
    Ptr.load (fun _ => Except.error "net") (Ptr.new Unit 5) (⟨[(5, 0)], 64⟩ : ObjectMap Nat)
      = (Except.ok 0, (⟨[(5, 0)], 64⟩ : ObjectMap Nat), false) ∧
    Ptr.load (fun i => (Except.ok i : Except String Int)) (Ptr.new Unit 7)
        (⟨[(5, (0 : Int))], 64⟩ : ObjectMap Int)
      = (Except.ok 7, (⟨[(5, (0 : Int))], 64⟩ : ObjectMap Int), true) :=
  ⟨(ptr_load_cache_then_network (fun _ => Except.error "net") (Ptr.new Unit 5)
      (⟨[(5, 0)], 64⟩ : ObjectMap Nat)).1 0 rfl,
   (ptr_load_cache_then_network (fun i => (Except.ok i : Except String Int)) (Ptr.new Unit 7)
      (⟨[(5, (0 : Int))], 64⟩ : ObjectMap Int)).2 rfl⟩

/-- C9: `Ptr::load` (model.rs:133-146) never inserts into the cache: the
multiset of cached identifiers after any `load` call is exactly the one
before (on a hit only the recency order changes; on a miss — including a
miss followed by a successful fetch — the cache is untouched), and the
capacity is unchanged. -/
theorem ptr_load_never_inserts {T V E : Type} (fetch : Int → Except E V)
    (p : Ptr T) (m : ObjectMap V) :
    ((Ptr.load fetch p m).2.1.entries.map Prod.fst).Perm (m.entries.map Prod.fst) ∧
    (Ptr.load fetch p m).2.1.cap = m.cap := by
  rcases hl : lookupKey m.entries p.id with _ | v
  · simp only [Ptr.load, lruGet, hl]
    constructor
    · exact List.Perm.refl _
    · trivial
  · simp only [Ptr.load, lruGet, hl]
    constructor
    · exact (List.Perm.map Prod.fst (perm_cons_eraseKey m.entries p.id v hl)).symm
    · trivial

/-- C3 counterexample: the claim says encoding 60 seconds yields
`"00:01:00"` (minutes = s / 60, seconds = s % 60), but the code's
`format!("00:00:{:02}", s)` yields `"00:00:60"`. -/
theorem music_encode_c3_counterexample :
    musicEncode ⟨60⟩ = "00:00:60".toList ∧
    specMusicEncode 60 = "00:01:00".toList ∧
    musicEncode ⟨60⟩ ≠ specMusicEncode 60 :=
  ⟨by decide, by decide, by decide⟩

/-- C3 amended: encoding emits `00:00:` followed by the WHOLE second
count zero-padded to at least two digits (the minute field is the
literal `00`); this agrees with the claimed `00:MM:SS` decomposition
exactly on second counts below 60. -/
theorem music_encode_amended (s : Nat) :
    musicEncode ⟨s⟩ = "00:00:".toList ++ pad2 (natRepr s) ∧
    (s < 60 → musicEncode ⟨s⟩ = specMusicEncode s) := by
  constructor
  · rfl
  · intro h
    have hd : s / 60 = 0 := Nat.div_eq_of_lt h
    have hm : s % 60 = s := Nat.mod_eq_of_lt h
    rw [specMusicEncode, hd, hm]
    rfl

/-- Witness for C3's amended statement at `s = 7`. -/
theorem music_encode_amended_witness :
    musicEncode ⟨7⟩ = "00:00:".toList ++ pad2 (natRepr 7) ∧
    musicEncode ⟨7⟩ = specMusicEncode 7 :=
  ⟨(music_encode_amended 7).1, (music_encode_amended 7).2 (by norm_num)⟩

/-- C10: encoding a `MusicPosition` (model.rs:70-74) and decoding the
text (model.rs:55-69) returns the same second count, for every second
count in `u32` range — also when `s ≥ 60`, since `"00:00:SS"` decodes as
`(0 * 60 + 0) * 60 + SS = SS`. -/
theorem music_encode_decode_roundtrip (s : Nat) (h : s < U32_MOD) :
    musicDecode (musicEncode ⟨s⟩) = Except.ok ⟨s⟩ := by
  have henc : musicEncode ⟨s⟩ = '0' :: '0' :: ':' :: '0' :: '0' :: ':' :: pad2 (natRepr s) := rfl
  have hz : parseU32 ['0', '0'] = some 0 := by decide
  have hp := parseU32_pad2_natRepr s h
  have hs1 : splitOnce ':' ('0' :: '0' :: ':' :: '0' :: '0' :: ':' :: pad2 (natRepr s))
      = (['0', '0'], some ('0' :: '0' :: ':' :: pad2 (natRepr s))) := by
    simp [splitOnce]
  have hs2 : splitOnce ':' ('0' :: '0' :: ':' :: pad2 (natRepr s))
      = (['0', '0'], some (pad2 (natRepr s))) := by
    simp [splitOnce]
  have hms : musicSecondsOpt (musicEncode ⟨s⟩) = some s := by
    rw [henc]
    simp only [musicSecondsOpt, hs1, hs2, hz, hp]
    norm_num
    exact Nat.mod_eq_of_lt h
  rw [musicDecode, hms]

/-- Witness for C10 at `s = 61` (greater than 59). -/
theorem music_encode_decode_roundtrip_witness :
    musicDecode (musicEncode ⟨61⟩) = Except.ok ⟨61⟩ :=
  music_encode_decode_roundtrip 61 (by decide)

/-- C4: `MusicPosition` decoding (model.rs:55-69) succeeds exactly when
the string splits on `:` into three fields (`splitn(3, ':')`, so a third
field containing `:` fails its numeric parse) that each parse as a `u32`,
and then the second count is `((f0 * 60) + f1) * 60 + f2` in the code's
`u32` (mod `2^32`) arithmetic; otherwise it fails with
`"illegal position"`. -/
theorem music_decode_three_fields (l : List Char) :
    (∃ f0 f1 f2 n0 n1 n2,
      l = f0 ++ ':' :: (f1 ++ ':' :: f2) ∧ ':' ∉ f0 ∧ ':' ∉ f1 ∧ ':' ∉ f2 ∧
      parseU32 f0 = some n0 ∧ parseU32 f1 = some n1 ∧ parseU32 f2 = some n2 ∧
      musicDecode l = Except.ok ⟨((n0 * 60 + n1) % U32_MOD * 60 + n2) % U32_MOD⟩) ∨
    ((¬ ∃ f0 f1 f2, l = f0 ++ ':' :: (f1 ++ ':' :: f2) ∧ ':' ∉ f0 ∧ ':' ∉ f1 ∧ ':' ∉ f2 ∧
        (parseU32 f0).isSome ∧ (parseU32 f1).isSome ∧ (parseU32 f2).isSome) ∧
      musicDecode l = Except.error "illegal position") := by
  rcases h0 : splitOnce ':' l with ⟨f0, or0⟩
  rcases or0 with _ | r0
  · right
    constructor
    · rintro ⟨g0, g1, g2, heq, hg0, _, _, _, _, _⟩
      rw [heq, splitOnce_append ':' g0 _ hg0] at h0
      injection h0 with _ h2
      cases h2
    · cases hp : parseU32 f0 <;>
        simp [musicDecode, musicSecondsOpt, h0, hp]
  · obtain ⟨hl0, hnc0⟩ := splitOnce_some ':' l f0 r0 h0
    rcases hp0 : parseU32 f0 with _ | n0
    · right
      constructor
      · rintro ⟨g0, g1, g2, heq, hg0, hg1, hg2, hs0, hs1, hs2⟩
        rw [heq, splitOnce_append ':' g0 _ hg0] at h0
        injection h0 with h1 _
        subst h1
        rw [hp0] at hs0
        simp at hs0
      · simp [musicDecode, musicSecondsOpt, h0, hp0]
    · rcases h1 : splitOnce ':' r0 with ⟨f1, or1⟩
      rcases or1 with _ | r1
      · right
        obtain ⟨hf1, hm1⟩ := splitOnce_none ':' r0 f1 h1
        constructor
        · rintro ⟨g0, g1, g2, heq, hg0, hg1, hg2, hs0, hs1, hs2⟩
          rw [heq, splitOnce_append ':' g0 _ hg0] at h0
          injection h0 with ha hb
          injection hb with hb
          apply hm1
          rw [← hb]
          exact List.mem_append.mpr (Or.inr (List.mem_cons_self _ _))
        · cases hq : parseU32 f1 <;>
            simp [musicDecode, musicSecondsOpt, h0, hp0, h1, hq]
      · obtain ⟨hl1, hnc1⟩ := splitOnce_some ':' r0 f1 r1 h1
        rcases hp1 : parseU32 f1 with _ | n1
        · right
          constructor
          · rintro ⟨g0, g1, g2, heq, hg0, hg1, hg2, hs0, hs1, hs2⟩
            rw [heq, splitOnce_append ':' g0 _ hg0] at h0
            injection h0 with ha hb
            injection hb with hb
            rw [← hb, splitOnce_append ':' g1 _ hg1] at h1
            injection h1 with hc hd
            subst hc
            rw [hp1] at hs1
            simp at hs1
          · simp [musicDecode, musicSecondsOpt, h0, hp0, h1, hp1]
        · rcases hp2 : parseU32 r1 with _ | n2
          · right
            constructor
            · rintro ⟨g0, g1, g2, heq, hg0, hg1, hg2, hs0, hs1, hs2⟩
              rw [heq, splitOnce_append ':' g0 _ hg0] at h0
              injection h0 with ha hb
              injection hb with hb
              rw [← hb, splitOnce_append ':' g1 _ hg1] at h1
              injection h1 with hc hd
              injection hd with hd
              rw [hd, hp2] at hs2
              simp at hs2
            · simp [musicDecode, musicSecondsOpt, h0, hp0, h1, hp1, hp2]
          · left
            refine ⟨f0, f1, r1, n0, n1, n2, ?_, hnc0, hnc1, parseU32_no_colon r1 n2 hp2,
              hp0, hp1, hp2, ?_⟩
            · rw [hl0, hl1]
            · simp [musicDecode, musicSecondsOpt, h0, hp0, h1, hp1, hp2]

set_option maxRecDepth 100000 in
/-- C2: `obtain_map_cache` (model.rs:34-41) creates each type's cache
with capacity 64; inserting 65 distinct identifiers into the fresh cache
causes exactly one eviction, and the evicted entry is the first-inserted
(least recently accessed) one.  The third conjunct shows a successful
lookup counting as an access: after filling with 0..63 and then looking
up 0, inserting 64 evicts 1 (the new least-recently-used), not 0. -/
theorem cache_capacity_64_single_lru_eviction (V : Type) (p0 : Int × V)
    (ps : List (Int × V)) (hlen : (p0 :: ps).length = 65)
    (hnodup : ((p0 :: ps).map Prod.fst).Nodup) :
    (newObjectMap V).cap = 64 ∧
    (lruPutAll (newObjectMap V) (p0 :: ps)).2 = [p0] ∧
    (lruPut (lruGet (lruPutAll (newObjectMap Unit)
        ((List.range 64).map (fun i => ((i : Int), ())))).1 0).2 64 ()).2
      = some (1, ()) := by
  refine ⟨rfl, ?_, by decide⟩
  have hps : ps.length = 64 := by
    simp only [List.length_cons] at hlen
    omega
  obtain ⟨q, hq⟩ : ∃ q, ps.drop 63 = [q] :=
    List.length_eq_one.mp (by rw [List.length_drop]; omega)
  have hsplit : p0 :: ps = (p0 :: ps.take 63) ++ [q] := by
    rw [List.cons_append]
    congr 1
    rw [← hq, List.take_append_drop]
  have haslen : (p0 :: ps.take 63).length = 64 := by
    rw [List.length_cons, List.length_take]
    omega
  rw [hsplit] at hnodup ⊢
  rw [List.map_append] at hnodup
  obtain ⟨hnd1, _, hdisj⟩ := List.nodup_append.mp hnodup
  have hqnot : q.1 ∉ (p0 :: ps.take 63).map Prod.fst := by
    intro hc
    exact hdisj hc (by simp)
  have hcap : (newObjectMap V).entries.length + (p0 :: ps.take 63).length
      ≤ (newObjectMap V).cap := by
    rw [haslen]
    norm_num [newObjectMap]
  have h1 := lruPutAll_fresh (p0 :: ps.take 63) (newObjectMap V)
    (fun k _ => rfl) hnd1 hcap
  rw [lruPutAll_append, h1]
  simp only [newObjectMap, List.append_nil, List.nil_append]
  rcases q with ⟨qk, qv⟩
  have hlk : lookupKey ((p0 :: ps.take 63).reverse) qk = none := by
    rw [lookupKey_eq_none, List.map_reverse, List.mem_reverse]
    exact hqnot
  have hfull : ((p0 :: ps.take 63).reverse).length = 64 := by
    rw [List.length_reverse]
    exact haslen
  simp only [lruPutAll, lruPut, hlk, hfull]
  simp [List.getLast?_reverse]

set_option maxRecDepth 100000 in
/-- Witness for C2: inserting the 65 distinct identifiers 0..64 into a
fresh capacity-64 cache evicts exactly the entry for 0. -/
theorem cache_capacity_64_single_lru_eviction_witness :
    (newObjectMap Unit).cap = 64 ∧
    (lruPutAll (newObjectMap Unit)
        (((0 : Int), ()) :: (List.range 64).map (fun i => ((i : Int) + 1, ())))).2
      = [((0 : Int), ())] ∧
    (lruPut (lruGet (lruPutAll (newObjectMap Unit)
        ((List.range 64).map (fun i => ((i : Int), ())))).1 0).2 64 ()).2
      = some (1, ()) :=
  cache_capacity_64_single_lru_eviction Unit ((0 : Int), ())
    ((List.range 64).map (fun i => ((i : Int) + 1, ()))) (by decide) (by decide)
